import Mathlib

/-!
Shallow embedding of `pathabbrev.go` (package main of the pathabbrev
repository). Go strings are modelled at the rune level as `List Char`
(`utf8.RuneCountInString` is `List.length`, `strings.Split` on the
one-character separator is `splitSep`, `strings.Join` is
`List.intercalate`). The ambient filesystem consulted by `os.Stat` is
modelled as an explicit oracle `stat : Str → Except StatErr Unit` stored in
the `pathShortener`; `fileExists` succeeds exactly when the oracle returns
`Except.ok`, mirroring `err == nil`. Every colorizer function produced by
`createColorizer` is either the identity or `escape(attr) + s + escape(reset)`,
so colorizer entries are modelled as a pair of fixed strings wrapped around
the argument (`ColorFn`); the identity is the pair of empty strings.
-/

namespace Pathabbrev

/-- Go strings at the rune level. -/
abbrev Str := List Char

/-- `os.PathSeparator` on the unix targets the program is built for. -/
def sep : Char := '/'

/-- Convenience conversion from Lean string literals to the rune-level model. -/
def lc (s : String) : Str := s.data

/-- `strings.Split(s, pathSeparator)` for the one-rune separator: the list of
maximal separator-free runs, with an empty run between adjacent separators and
at the ends; `splitSep [] = [[]]` just as `strings.Split("", sep)` is `[""]`. -/
def splitSep : Str → List Str
  | [] => [[]]
  | c :: rest =>
    if c = sep then [] :: splitSep rest
    else
      match splitSep rest with
      | s :: ss => (c :: s) :: ss
      | [] => [[c]]

/-- Outcome of an `os.Stat` probe: success carries no information the program
uses; failures distinguish the error classes the spec mentions. -/
inductive StatErr where
  | permissionDenied
  | notExist
  | other
deriving DecidableEq

/-- A single text decoration: the fixed strings written before and after the
decorated text. `createColorizer` only ever builds decorations of this shape. -/
structure ColorFn where
  pre : Str
  post : Str
deriving DecidableEq

/-- Apply a decoration to a piece of text. -/
def ColorFn.app (f : ColorFn) (s : Str) : Str := f.pre ++ s ++ f.post

/-- The identity decoration (`noop` in `createColorizer`). -/
def ColorFn.noop : ColorFn := ⟨[], []⟩

/-- The `colorizer` record of per-role decoration functions. -/
structure colorizer where
  EnvRoot : ColorFn
  Separator : ColorFn
  Project : ColorFn
  Ellipsis : ColorFn
  Default : ColorFn
  None : ColorFn
deriving DecidableEq

/-- The all-identity colorizer: every role left undecorated. -/
def noopColorizer : colorizer :=
  ⟨ColorFn.noop, ColorFn.noop, ColorFn.noop, ColorFn.noop, ColorFn.noop, ColorFn.noop⟩

/-- The `env` struct: a root label and its directory value. -/
structure env where
  name : Str
  value : Str
deriving DecidableEq

/-- The `envrange` slice of root entries, in priority order. -/
abbrev envrange := List env

/-- The match test inside `EnvPrefix`:
`path == envRep.value || strings.HasPrefix(path, envRep.value+pathSeparator)`. -/
def envMatches (path : Str) (envRep : env) : Bool :=
  path == envRep.value || (envRep.value ++ [sep]).isPrefixOf path

/-- `envrange.EnvPrefix`: the first entry whose value equals `path` or is a
proper directory-prefix of it, returning its label and
`strings.Count(value, pathSeparator) + 1`; `("", 0)` when no entry matches. -/
def EnvPrefix (e : envrange) (path : Str) : Str × Nat :=
  match e with
  | [] => ([], 0)
  | envRep :: rest =>
    if envMatches path envRep then (envRep.name, envRep.value.count sep + 1)
    else EnvPrefix rest path

/-- `stripTrailingSlash`: strings of length at most 1 are returned unchanged,
otherwise `strings.TrimSuffix(dir, pathSeparator)` removes one trailing
separator when present. -/
def stripTrailingSlash (dir : Str) : Str :=
  if dir.length ≤ 1 then dir
  else if dir.getLast? = some sep then dir.dropLast else dir

/-- `strings.TrimSpace`: drop whitespace runes from both ends. -/
def trimSpace (s : Str) : Str :=
  ((s.dropWhile Char.isWhitespace).reverse.dropWhile Char.isWhitespace).reverse

/-- The `homeSigil` constant `"~"`. -/
def homeSigil : Str := ['~']

/-- `getEnvs`: one entry `("$" + name, stripTrailingSlash value)` per
environment name whose trimmed name and looked-up value are non-empty, in
order, followed by one home entry `("~", stripTrailingSlash dir)` per
configured home directory. The process environment `os.Getenv` is the oracle
`getenv`. -/
def getEnvs (getenv : Str → Str) (envNames homeDirs : List Str) : envrange :=
  (envNames.filterMap fun envName =>
    if trimSpace envName = [] then none
    else if getenv envName = [] then none
    else some ⟨'$' :: envName, stripTrailingSlash (getenv envName)⟩)
  ++ homeDirs.map fun homeDir => ⟨homeSigil, stripTrailingSlash homeDir⟩

/-- The `pathShortener`, with the embedded `colorizer` (Go struct embedding)
and the ambient filesystem oracle made explicit. -/
structure pathShortener extends colorizer where
  abbreviate : Bool
  rootFiles : List Str
  envs : envrange
  stat : Str → Except StatErr Unit
/-- `fileExists`: `_, err := os.Stat(file); return err == nil`. -/
def fileExists (stat : Str → Except StatErr Unit) (file : Str) : Bool :=
  match stat file with
  | Except.ok _ => true
  | Except.error _ => false

/-- The element processing of `filepath.Clean` (unix): skip empty and `.`
elements, pop one element on `..` (except past `..` elements already kept, or
at the root), keep `..` at the front of a relative path. `out` is the stack of
kept elements, most recent first. -/
def cleanCore (rooted : Bool) (out : List Str) : List Str → List Str
  | [] => out.reverse
  | e :: rest =>
    if e = [] || e = ['.'] then cleanCore rooted out rest
    else if e = ['.', '.'] then
      match out with
      | top :: outTail =>
        if top = ['.', '.'] then cleanCore rooted (['.', '.'] :: top :: outTail) rest
        else cleanCore rooted outTail rest
      | [] => if rooted then cleanCore rooted [] rest else cleanCore rooted [['.', '.']] rest
    else cleanCore rooted (e :: out) rest

/-- `filepath.Clean` (unix): lexical simplification; `""` becomes `"."`,
a rooted path keeps its leading separator, and an everything-cancelled result
is `"/"` when rooted and `"."` otherwise. -/
def clean (path : Str) : Str :=
  if path = [] then ['.']
  else
    let rooted : Bool := path.head? = some sep
    match cleanCore rooted [] (splitSep path) with
    | [] => if rooted then [sep] else ['.']
    | e :: es => (if rooted then [sep] else []) ++ List.intercalate [sep] (e :: es)

/-- `filepath.Join(dir, file)`: drop leading empty elements, join the rest
with the separator and `Clean` the result; `Join("", "") = ""`. -/
def filepathJoin (dir file : Str) : Str :=
  if dir ≠ [] then clean (dir ++ sep :: file)
  else if file ≠ [] then clean file
  else []

/-- `pathShortener.sourceRoot`: some configured marker exists under `dir`. -/
def sourceRoot (p : pathShortener) (dir : Str) : Bool :=
  p.rootFiles.any fun file => fileExists p.stat (filepathJoin dir file)

/-- The character class `[\w-]` of `shortenRegex` (RE2 `\w` is ASCII-only). -/
def isWordDash (c : Char) : Bool :=
  ('0' ≤ c && c ≤ '9') || ('A' ≤ c && c ≤ 'Z') || ('a' ≤ c && c ≤ 'z')
    || c == '_' || c == '-'

/-- `shortenRegex.ReplaceAllString(s, "$1" + ellipsis("$2"))` for
`shortenRegex = ^([\w-])(.{2}).*`: the anchored pattern matches at most once,
requires a `[\w-]` first rune and two further non-newline runes, and its `.*`
extends greedily up to the first newline; the matched span is replaced by the
first rune followed by the Ellipsis-decorated second and third runes, and the
unmatched tail (from the first newline among the later runes on) is kept. -/
def shortenRegexReplace (ellipsis : ColorFn) (s : Str) : Str :=
  match s with
  | c1 :: c2 :: c3 :: rest =>
    if isWordDash c1 && c2 != '\n' && c3 != '\n' then
      c1 :: (ColorFn.app ellipsis [c2, c3] ++ rest.dropWhile (fun c => c != '\n'))
    else s
  | _ => s

/-- `pathShortener.shorten`: a segment is returned unchanged when abbreviation
is off or it has at most 3 runes, otherwise the regex replacement is applied. -/
def shorten (p : pathShortener) (pathSegment : Str) : Str :=
  if p.abbreviate = false ∨ pathSegment.length ≤ 3 then pathSegment
  else shortenRegexReplace p.Ellipsis pathSegment

/-- The `shortenedSegment` closure inside `Shorten`: the piece emitted for the
non-terminal segment at index `i`, classified by the cumulative directory
`strings.Join(segments[:i+1], pathSeparator)`. -/
def shortenedSegment (p : pathShortener) (segments : List Str) (i : Nat) : Str :=
  let dir := List.intercalate [sep] (segments.take (i + 1))
  if sourceRoot p dir then ColorFn.app p.Project (segments.getD i [])
  else ColorFn.app p.Default (shorten p (segments.getD i []))

/-- The list `shortenedSegments` built by `Shorten` before joining: the
optional root label, the processed non-terminal segments from `start` up to
but excluding the last index, and the terminal segment when one remains. -/
def shortenPieces (p : pathShortener) (path : Str) : List Str :=
  let pr := EnvPrefix p.envs path
  let segments := splitSep path
  let endSegment := segments.length - 1
  (if pr.1 ≠ [] then [ColorFn.app p.EnvRoot pr.1] else [])
    ++ (List.range' pr.2 (endSegment - pr.2)).map (shortenedSegment p segments)
    ++ (if pr.2 ≤ endSegment then
          [ColorFn.app (if sourceRoot p path then p.Project else p.Default)
            (segments.getD endSegment [])]
        else [])

/-- `pathShortener.Shorten`: empty input maps to empty output, otherwise the
pieces are joined with the Separator-decorated path separator. -/
def Shorten (p : pathShortener) (path : Str) : Str :=
  if path = [] then []
  else List.intercalate (ColorFn.app p.Separator [sep]) (shortenPieces p path)

/-- Number of leading label pieces `Shorten` emits before the segment pieces. -/
def headCount (p : pathShortener) (path : Str) : Nat :=
  if (EnvPrefix p.envs path).1 ≠ [] then 1 else 0

/-- Segments on which `shortenRegex` rewrites the whole text: a `[\w-]` first
rune and no newline later (given more than 3 runes). -/
def goodSegment (s : Str) : Bool :=
  (match s.head? with
   | some c => isWordDash c
   | none => false) && s.tail.all (fun c => c != '\n')

/-- Configured directory strings on which removing one trailing separator
leaves none: the string is not the bare separator and does not end in two
consecutive separators. -/
def goodTail (s : Str) : Prop :=
  s ≠ [sep] ∧ (s.getLast? = some sep → s.dropLast.getLast? ≠ some sep)

instance (s : Str) : Decidable (goodTail s) := by
  unfold goodTail
  infer_instance

end Pathabbrev

namespace Pathabbrev

theorem intercalate_singleton (s a : Str) : List.intercalate s [a] = a := by
  simp [List.intercalate, List.intersperse]

theorem intercalate_cons (s a : Str) (l : List Str) (h : l ≠ []) :
    List.intercalate s (a :: l) = a ++ s ++ List.intercalate s l := by
  cases l with
  | nil => exact absurd rfl h
  | cons b t => simp [List.intercalate, List.intersperse, List.append_assoc]

theorem splitSep_ne_nil (s : Str) : splitSep s ≠ [] := by
  cases s with
  | nil => simp [splitSep]
  | cons c rest =>
    unfold splitSep
    by_cases hc : c = sep
    · simp [hc]
    · rw [if_neg hc]
      cases h : splitSep rest <;> simp

theorem splitSep_cons_sep (rest : Str) : splitSep (sep :: rest) = [] :: splitSep rest := by
  simp [splitSep]

theorem splitSep_cons_of_eq (c : Char) (rest : Str) (hc : ¬c = sep) (a : Str)
    (as : List Str) (h : splitSep rest = a :: as) :
    splitSep (c :: rest) = (c :: a) :: as := by
  unfold splitSep
  rw [if_neg hc, h]

theorem length_splitSep (s : Str) : (splitSep s).length = s.count sep + 1 := by
  induction s with
  | nil => simp [splitSep]
  | cons c rest ih =>
    by_cases hc : c = sep
    · subst hc
      rw [splitSep_cons_sep]
      simp [ih, List.count_cons]
    · cases h : splitSep rest with
      | nil => exact absurd h (splitSep_ne_nil rest)
      | cons a as =>
        rw [splitSep_cons_of_eq c rest hc a as h]
        rw [h] at ih
        simp only [List.length_cons] at ih ⊢
        rw [ih]
        simp [List.count_cons, hc]

theorem intercalate_splitSep (s : Str) : List.intercalate [sep] (splitSep s) = s := by
  induction s with
  | nil => simp [splitSep, intercalate_singleton]
  | cons c rest ih =>
    by_cases hc : c = sep
    · subst hc
      rw [splitSep_cons_sep, intercalate_cons _ _ _ (splitSep_ne_nil rest)]
      simp [ih]
    · cases h : splitSep rest with
      | nil => exact absurd h (splitSep_ne_nil rest)
      | cons a as =>
        rw [splitSep_cons_of_eq c rest hc a as h]
        rw [h] at ih
        cases as with
        | nil =>
          rw [intercalate_singleton] at ih ⊢
          simp [ih]
        | cons b bs =>
          rw [intercalate_cons _ _ _ (by simp)] at ih ⊢
          simp only [List.cons_append]
          rw [ih]

theorem splitSep_concat_sep (s : Str) : splitSep (s ++ [sep]) = splitSep s ++ [[]] := by
  induction s with
  | nil => simp [splitSep]
  | cons c rest ih =>
    by_cases hc : c = sep
    · subst hc
      rw [List.cons_append, splitSep_cons_sep, splitSep_cons_sep, ih]
      rfl
    · cases h : splitSep rest with
      | nil => exact absurd h (splitSep_ne_nil rest)
      | cons a as =>
        have h2 : splitSep (rest ++ [sep]) = a :: (as ++ [[]]) := by
          rw [ih, h]
          rfl
        rw [List.cons_append, splitSep_cons_of_eq c (rest ++ [sep]) hc a (as ++ [[]]) h2,
          splitSep_cons_of_eq c rest hc a as h]
        rfl

theorem getD_range'_map (f : Nat → Str) (a n k : Nat) (h : k < n) :
    ((List.range' a n).map f).getD k [] = f (a + k) := by
  rw [List.getD_eq_getElem _ _ (by simpa using h)]
  simp

end Pathabbrev

namespace Pathabbrev

theorem shortenPieces_getD_mid (p : pathShortener) (path : Str) (i : Nat)
    (h1 : (EnvPrefix p.envs path).2 ≤ i) (h2 : i < (splitSep path).length - 1) :
    (shortenPieces p path).getD (headCount p path + (i - (EnvPrefix p.envs path).2)) []
      = shortenedSegment p (splitSep path) i := by
  have hmid : i - (EnvPrefix p.envs path).2
      < (splitSep path).length - 1 - (EnvPrefix p.envs path).2 := by omega
  simp only [shortenPieces, headCount]
  by_cases hp : (EnvPrefix p.envs path).1 = []
  · simp only [hp, ne_eq, not_true_eq_false, if_false, List.nil_append, Nat.zero_add]
    rw [List.getD_append _ _ _ _ (by simpa using hmid)]
    rw [getD_range'_map _ _ _ _ hmid, Nat.add_sub_cancel' h1]
  · simp only [hp, ne_eq, not_false_eq_true, if_true]
    rw [List.append_assoc, List.getD_append_right _ _ _ _ (by simp)]
    have h3 : 1 + (i - (EnvPrefix p.envs path).2) - 1 = i - (EnvPrefix p.envs path).2 := by
      omega
    simp only [List.length_cons, List.length_nil, h3]
    rw [List.getD_append _ _ _ _ (by simpa using hmid)]
    rw [getD_range'_map _ _ _ _ hmid, Nat.add_sub_cancel' h1]

theorem shortenPieces_getD_last (p : pathShortener) (path : Str)
    (h : (EnvPrefix p.envs path).2 ≤ (splitSep path).length - 1) :
    (shortenPieces p path).getD
        (headCount p path
          + ((splitSep path).length - 1 - (EnvPrefix p.envs path).2)) []
      = ColorFn.app (if sourceRoot p path then p.Project else p.Default)
          ((splitSep path).getD ((splitSep path).length - 1) []) := by
  simp only [shortenPieces, headCount]
  rw [if_pos h]
  by_cases hp : (EnvPrefix p.envs path).1 = []
  · simp only [hp, ne_eq, not_true_eq_false, if_false, List.nil_append, Nat.zero_add]
    rw [List.getD_append_right _ _ _ _ (by simp)]
    simp
  · simp only [hp, ne_eq, not_false_eq_true, if_true]
    rw [List.append_assoc, List.getD_append_right _ _ _ _ (by simp)]
    simp only [List.length_cons, List.length_nil]
    have h3 : 1 + ((splitSep path).length - 1 - (EnvPrefix p.envs path).2) - 1
        = (splitSep path).length - 1 - (EnvPrefix p.envs path).2 := by omega
    rw [h3]
    rw [List.getD_append_right _ _ _ _ (by simp)]
    simp

theorem shortenPieces_getLast (p : pathShortener) (path : Str)
    (h : (EnvPrefix p.envs path).2 ≤ (splitSep path).length - 1) :
    (shortenPieces p path).getLast?
      = some (ColorFn.app (if sourceRoot p path then p.Project else p.Default)
          ((splitSep path).getD ((splitSep path).length - 1) [])) := by
  simp only [shortenPieces]
  rw [if_pos h, List.getLast?_concat]

end Pathabbrev

namespace Pathabbrev

theorem envPrefix_append_first (es1 es2 : envrange) (x : env) (path : Str)
    (hfirst : ∀ y ∈ es1, envMatches path y = false)
    (hx : envMatches path x = true) :
    EnvPrefix (es1 ++ x :: es2) path = (x.name, x.value.count sep + 1) := by
  induction es1 with
  | nil => simp [EnvPrefix, hx]
  | cons y ys ih =>
    have hy := hfirst y (by simp)
    rw [List.cons_append]
    unfold EnvPrefix
    rw [if_neg (by simp [hy])]
    exact ih fun z hz => hfirst z (by simp [hz])

theorem stripTrailingSlash_no_trailing (dir : Str) (h : goodTail dir) :
    (stripTrailingSlash dir).getLast? ≠ some sep := by
  obtain ⟨h1, h2⟩ := h
  unfold stripTrailingSlash
  split
  · intro hlast
    rcases dir with _ | ⟨c, _ | ⟨d, t⟩⟩
    · simp at hlast
    · simp at hlast
      exact h1 (by simp [hlast])
    · simp at *
  · split
    · exact h2 (by assumption)
    · assumption

theorem shorten_eq_take (p : pathShortener) (s : Str)
    (hab : p.abbreviate = true) (hell : p.Ellipsis = ColorFn.noop)
    (hlen : 3 < s.length) (hgood : goodSegment s = true) :
    shorten p s = s.take 3 := by
  rcases s with _ | ⟨c1, _ | ⟨c2, _ | ⟨c3, rest⟩⟩⟩
  · simp at hlen
  · simp at hlen
  · simp at hlen
  · unfold shorten
    rw [if_neg (by
      push_neg
      refine ⟨by simp [hab], ?_⟩
      simp only [List.length_cons] at hlen ⊢
      omega)]
    unfold goodSegment at hgood
    simp only [List.head?, List.tail_cons, List.all_cons, Bool.and_eq_true] at hgood
    obtain ⟨hw, hc2, hc3, hrest⟩ := hgood
    simp only [shortenRegexReplace]
    rw [if_pos (by simp [hw, hc2, hc3])]
    rw [hell]
    have hdrop : rest.dropWhile (fun c => c != '\n') = [] := by
      rw [List.dropWhile_eq_nil_iff]
      intro x hx
      exact List.all_eq_true.mp hrest x hx
    simp [ColorFn.app, ColorFn.noop, hdrop]

end Pathabbrev

namespace Pathabbrev

/-- C3: for every ordered root-entry list and every path, `EnvPrefix` returns,
for the first entry whose stored value equals the path or is a proper
directory-prefix of it (the path continues with a separator), that entry's
label together with the number of separators in the stored value plus one;
when no entry matches it returns the empty label and count 0. -/
theorem c3_envPrefix_first_match (e : envrange) (path : Str) :
    EnvPrefix e path =
      match e.find? (envMatches path) with
      | some envRep => (envRep.name, envRep.value.count sep + 1)
      | none => ([], 0) := by
  induction e with
  | nil => rfl
  | cons x rest ih =>
    cases hx : envMatches path x
    · rw [List.find?_cons_of_neg _ (by simp [hx])]
      unfold EnvPrefix
      rw [if_neg (by simp [hx])]
      exact ih
    · rw [List.find?_cons_of_pos _ hx]
      unfold EnvPrefix
      rw [if_pos hx]

/-- C8: a segment whose first code point is not an ASCII word character
(`[0-9A-Za-z_]`) or hyphen is returned unchanged by the segment shortener,
for every policy and every segment length. -/
theorem c8_non_word_first_unchanged (p : pathShortener) (c : Char) (cs : Str)
    (hc : isWordDash c = false) :
    shorten p (c :: cs) = c :: cs := by
  have hrep : shortenRegexReplace p.Ellipsis (c :: cs) = c :: cs := by
    rcases cs with _ | ⟨c2, cs2⟩
    · rfl
    rcases cs2 with _ | ⟨c3, rest⟩
    · rfl
    · simp only [shortenRegexReplace]
      rw [if_neg (by simp [hc])]
  unfold shorten
  split
  · rfl
  · exact hrep

/-- Closed instance of `c8_non_word_first_unchanged`: a 14-code-point segment
starting with a dot survives shortening even with abbreviation enabled. -/
theorem c8_witness :
    shorten ⟨noopColorizer, true, [], [], fun _ => Except.error StatErr.notExist⟩
        ('.' :: lc "configuration")
      = '.' :: lc "configuration" :=
  c8_non_word_first_unchanged _ '.' (lc "configuration") (by decide)

/-- C7: a failed existence probe behaves exactly like an absent marker.
`fileExists` maps every stat error to `false` (the detector never signals an
error), and the project-root detector's verdict is unchanged when the stat
oracle's errors are exchanged for any other errors, in particular when a
permission-denied failure is replaced by plain non-existence. -/
theorem c7_probe_failure_as_absent (p : pathShortener)
    (stat2 : Str → Except StatErr Unit) (dir : Str)
    (hagree : ∀ q, (p.stat q).isOk = (stat2 q).isOk) :
    sourceRoot p dir
        = sourceRoot (pathShortener.mk p.tocolorizer p.abbreviate p.rootFiles p.envs stat2) dir
      ∧ ∀ q e, p.stat q = Except.error e → fileExists p.stat q = false := by
  constructor
  · have hpt : ∀ q, fileExists p.stat q = fileExists stat2 q := by
      intro q
      have hq := hagree q
      unfold fileExists
      cases h1 : p.stat q <;> cases h2 : stat2 q <;>
        simp [h1, h2, Except.isOk, Except.toBool] at hq ⊢
    have hgen : ∀ l : List Str,
        (l.any fun file => fileExists p.stat (filepathJoin dir file))
          = l.any fun file => fileExists stat2 (filepathJoin dir file) := by
      intro l
      induction l with
      | nil => rfl
      | cons a t ih => simp [List.any_cons, hpt, ih]
    exact hgen p.rootFiles
  · intro q e h
    unfold fileExists
    rw [h]

/-- Closed instance of `c7_probe_failure_as_absent`: with every probe failing
with permission denied, the detector's verdict is the same as with every
probe failing with non-existence. -/
theorem c7_witness :
    sourceRoot
        ⟨noopColorizer, true, [lc ".git"], [],
          fun _ => Except.error StatErr.permissionDenied⟩ (lc "/a")
      = sourceRoot
          (pathShortener.mk noopColorizer true [lc ".git"] []
            fun _ => Except.error StatErr.notExist) (lc "/a") :=
  (c7_probe_failure_as_absent
    ⟨noopColorizer, true, [lc ".git"], [], fun _ => Except.error StatErr.permissionDenied⟩
    (fun _ => Except.error StatErr.notExist) (lc "/a") fun _ => rfl).1

end Pathabbrev

namespace Pathabbrev

/-- C5 counterexample: with the `None` role left as the identity but the
`Default` role configured to wrap its text in brackets, the terminal piece of
`Shorten "/ab"` (no project root) is the Default-decorated `[ab]`, not the
None-decorated `ab`: the code routes a non-project terminal segment through
`Default`, not `None`. -/
theorem c5_counterexample :
    (shortenPieces
        ⟨⟨ColorFn.noop, ColorFn.noop, ColorFn.noop, ColorFn.noop,
            ⟨lc "[", lc "]"⟩, ColorFn.noop⟩,
          true, [], [], fun _ => Except.error StatErr.notExist⟩
        (lc "/ab")).getLast?
      = some (lc "[ab]")
    ∧ ColorFn.app ColorFn.noop (lc "ab") = lc "ab"
    ∧ lc "[ab]" ≠ lc "ab" := by decide

/-- C5 amended: whenever at least one segment remains after the root prefix,
the last piece `Shorten` emits is the terminal segment decorated with the
`Project` role when the full path is a project root and with the `Default`
role otherwise (the `None` role is never used). -/
theorem c5_amended_terminal_decoration (p : pathShortener) (path : Str)
    (hterm : (EnvPrefix p.envs path).2 ≤ (splitSep path).length - 1) :
    (shortenPieces p path).getLast?
      = some (ColorFn.app (if sourceRoot p path then p.Project else p.Default)
          ((splitSep path).getD ((splitSep path).length - 1) [])) :=
  shortenPieces_getLast p path hterm

/-- Closed instance of `c5_amended_terminal_decoration` on the path `/ab`
with no configured roots and every probe failing. -/
theorem c5_witness :
    (shortenPieces
        ⟨noopColorizer, true, [], [], fun _ => Except.error StatErr.notExist⟩
        (lc "/ab")).getLast?
      = some (ColorFn.app
          (if sourceRoot
              ⟨noopColorizer, true, [], [], fun _ => Except.error StatErr.notExist⟩
              (lc "/ab")
           then noopColorizer.Project else noopColorizer.Default)
          ((splitSep (lc "/ab")).getD ((splitSep (lc "/ab")).length - 1) [])) :=
  c5_amended_terminal_decoration
    ⟨noopColorizer, true, [], [], fun _ => Except.error StatErr.notExist⟩
    (lc "/ab") (by decide)

/-- C6 counterexample: the configured home directory `/a//` is stored as
`/a/`, which still ends in a path separator: construction removes at most one
trailing separator, not all of them. -/
theorem c6_counterexample :
    (getEnvs (fun _ => []) [] [lc "/a//"]).map env.value = [lc "/a/"]
    ∧ (lc "/a/").getLast? = some sep := by decide

/-- C6 amended: construction removes a single trailing separator, so the
stored value of every root entry has no trailing separator provided each
configured string (environment value or home directory) is neither the bare
separator `/` nor ends in two consecutive separators. -/
theorem c6_amended_no_trailing_sep (getenv : Str → Str)
    (envNames homeDirs : List Str) (x : env)
    (hn : ∀ n ∈ envNames, goodTail (getenv n))
    (hh : ∀ d ∈ homeDirs, goodTail d)
    (hx : x ∈ getEnvs getenv envNames homeDirs) :
    x.value.getLast? ≠ some sep := by
  unfold getEnvs at hx
  rcases List.mem_append.mp hx with hmem | hmem
  · obtain ⟨n, hn1, hn2⟩ := List.mem_filterMap.mp hmem
    by_cases h1 : trimSpace n = []
    · simp [h1] at hn2
    by_cases h2 : getenv n = []
    · simp [h1, h2] at hn2
    simp only [h1, h2, if_false, Option.some.injEq] at hn2
    cases hn2
    exact stripTrailingSlash_no_trailing (getenv n) (hn n hn1)
  · obtain ⟨d, hd1, hd2⟩ := List.mem_map.mp hmem
    cases hd2
    exact stripTrailingSlash_no_trailing d (hh d hd1)

/-- Closed instance of `c6_amended_no_trailing_sep`: with `GOPATH=/g/path/`
and home `/home/u/`, the stored home entry value has no trailing separator. -/
theorem c6_witness :
    (env.mk (lc "~") (lc "/home/u")).value.getLast? ≠ some sep :=
  c6_amended_no_trailing_sep (fun _ => lc "/g/path/") [lc "GOPATH"] [lc "/home/u/"]
    ⟨lc "~", lc "/home/u"⟩ (by decide) (by decide) (by decide)

end Pathabbrev

namespace Pathabbrev

theorem shortenPieces_label_only (p : pathShortener) (path : Str)
    (hname : (EnvPrefix p.envs path).1 ≠ [])
    (hgt : (splitSep path).length - 1 < (EnvPrefix p.envs path).2) :
    shortenPieces p path = [ColorFn.app p.EnvRoot (EnvPrefix p.envs path).1] := by
  simp only [shortenPieces]
  rw [if_pos hname, if_neg (by omega)]
  have h0 : (splitSep path).length - 1 - (EnvPrefix p.envs path).2 = 0 := by omega
  rw [h0]
  simp

theorem shortenPieces_label_term (p : pathShortener) (path : Str)
    (hname : (EnvPrefix p.envs path).1 ≠ [])
    (heq : (EnvPrefix p.envs path).2 = (splitSep path).length - 1) :
    shortenPieces p path
      = [ColorFn.app p.EnvRoot (EnvPrefix p.envs path).1,
         ColorFn.app (if sourceRoot p path then p.Project else p.Default)
           ((splitSep path).getD ((splitSep path).length - 1) [])] := by
  simp only [shortenPieces]
  rw [if_pos hname, if_pos (by omega)]
  have h0 : (splitSep path).length - 1 - (EnvPrefix p.envs path).2 = 0 := by omega
  rw [h0]
  simp

/-- C2: for every emitted segment (at or after the root prefix) whose
cumulative directory path is reported by the filesystem probe to contain a
configured marker, the piece `Shorten` emits at the corresponding position is
the Project-decorated segment in full — never the shortened form — and this
covers the terminal segment, whose cumulative path is the whole input. -/
theorem c2_marker_segment_full (p : pathShortener) (path : Str) (i : Nat)
    (h1 : (EnvPrefix p.envs path).2 ≤ i)
    (h2 : i ≤ (splitSep path).length - 1)
    (hsr : sourceRoot p (List.intercalate [sep] ((splitSep path).take (i + 1))) = true) :
    (shortenPieces p path).getD
        (headCount p path + (i - (EnvPrefix p.envs path).2)) []
      = ColorFn.app p.Project ((splitSep path).getD i []) := by
  rcases Nat.lt_or_ge i ((splitSep path).length - 1) with hlt | hge
  · rw [shortenPieces_getD_mid p path i h1 hlt]
    simp only [shortenedSegment]
    rw [if_pos hsr]
  · have hieq : i = (splitSep path).length - 1 := Nat.le_antisymm h2 hge
    subst hieq
    rw [shortenPieces_getD_last p path h1]
    have hfull : (splitSep path).length - 1 + 1 = (splitSep path).length := by
      have := length_splitSep path
      omega
    rw [hfull, List.take_length, intercalate_splitSep] at hsr
    rw [hsr]
    simp

/-- Closed instance of `c2_marker_segment_full`: on `/a/b` with the marker
`.git` present in `/a`, the piece for segment `a` is the full segment. -/
theorem c2_witness :
    (shortenPieces
        ⟨noopColorizer, true, [lc ".git"], [],
          fun q => if q = lc "/a/.git" then Except.ok () else Except.error StatErr.notExist⟩
        (lc "/a/b")).getD
        (headCount
            ⟨noopColorizer, true, [lc ".git"], [],
              fun q => if q = lc "/a/.git" then Except.ok () else Except.error StatErr.notExist⟩
            (lc "/a/b")
          + (1 - (EnvPrefix ([] : envrange) (lc "/a/b")).2)) []
      = ColorFn.app noopColorizer.Project ((splitSep (lc "/a/b")).getD 1 []) :=
  c2_marker_segment_full
    ⟨noopColorizer, true, [lc ".git"], [],
      fun q => if q = lc "/a/.git" then Except.ok () else Except.error StatErr.notExist⟩
    (lc "/a/b") 1 (by decide) (by decide) (by decide)

/-- C4 counterexample: with `GOPATH=/home/u` also configured as an
environment root and home `/home/u`, the input `/home/u` equals the
configured home value yet `Shorten` yields the label `$GOPATH`, not the home
label `~`: the first matching entry wins. -/
theorem c4_counterexample :
    Shorten
        ⟨noopColorizer, true, [],
          getEnvs (fun n => if n = lc "GOPATH" then lc "/home/u" else [])
            [lc "GOPATH"] [lc "/home/u"],
          fun _ => Except.error StatErr.notExist⟩
        (lc "/home/u")
      = lc "$GOPATH"
    ∧ lc "$GOPATH" ≠ lc "~" := by decide

/-- C4 amended: for every non-empty path equal to the stored value of a root
entry, provided no earlier entry of the ordered root list matches the path,
`Shorten` returns exactly that entry's decorated label alone — in particular
the home label `~` alone when the home entry is the first match. -/
theorem c4_amended_exact_root_label_alone (p : pathShortener) (path : Str)
    (x : env) (es1 es2 : envrange)
    (henvs : p.envs = es1 ++ x :: es2)
    (hfirst : ∀ y ∈ es1, envMatches path y = false)
    (hval : path = x.value)
    (hname : x.name ≠ [])
    (hpath : path ≠ []) :
    Shorten p path = ColorFn.app p.EnvRoot x.name := by
  have hm : envMatches path x = true := by
    simp [envMatches, hval]
  have hEP : EnvPrefix p.envs path = (x.name, x.value.count sep + 1) := by
    rw [henvs]
    exact envPrefix_append_first es1 es2 x path hfirst hm
  have hlen := length_splitSep path
  have hcnt : path.count sep = x.value.count sep := by rw [hval]
  have hname' : (EnvPrefix p.envs path).1 ≠ [] := by
    rw [hEP]
    exact hname
  have hgt : (splitSep path).length - 1 < (EnvPrefix p.envs path).2 := by
    rw [hEP]
    show (splitSep path).length - 1 < x.value.count sep + 1
    omega
  unfold Shorten
  rw [if_neg hpath, shortenPieces_label_only p path hname' hgt, intercalate_singleton, hEP]

/-- Closed instance of `c4_amended_exact_root_label_alone`: home `/home/u`
as the only root entry, input `/home/u`, output the home label alone. -/
theorem c4_witness :
    Shorten
        ⟨noopColorizer, true, [], getEnvs (fun _ => []) [] [lc "/home/u"],
          fun _ => Except.error StatErr.notExist⟩
        (lc "/home/u")
      = ColorFn.app noopColorizer.EnvRoot (lc "~") :=
  c4_amended_exact_root_label_alone
    ⟨noopColorizer, true, [], getEnvs (fun _ => []) [] [lc "/home/u"],
      fun _ => Except.error StatErr.notExist⟩
    (lc "/home/u") ⟨lc "~", lc "/home/u"⟩ [] [] (by decide) (by decide)
    (by decide) (by decide) (by decide)

end Pathabbrev

namespace Pathabbrev

/-- C9 counterexample: the home entry stores `/a/b`, but an earlier
environment-root entry `$A` with value `/a` also matches `/a/b/`, so
`Shorten "/a/b/"` yields `$A/b/` rather than the home label, a separator and
an empty terminal segment (`~/`). -/
theorem c9_counterexample :
    Shorten
        ⟨noopColorizer, true, [],
          getEnvs (fun n => if n = lc "A" then lc "/a" else []) [lc "A"] [lc "/a/b"],
          fun _ => Except.error StatErr.notExist⟩
        (lc "/a/b/")
      = lc "$A/b/"
    ∧ lc "$A/b/" ≠ lc "~/" := by decide

/-- C9 amended: for every root entry with stored value `v` that is the first
entry matching `v` followed by a single trailing separator, `Shorten` on that
input returns the entry's decorated label, then the decorated separator, then
the decorated empty terminal segment (`~/` for a first-matching home entry,
ignoring decoration) — not the label alone. -/
theorem c9_amended_trailing_sep_empty_terminal (p : pathShortener) (x : env)
    (es1 es2 : envrange)
    (henvs : p.envs = es1 ++ x :: es2)
    (hfirst : ∀ y ∈ es1, envMatches (x.value ++ [sep]) y = false)
    (hname : x.name ≠ []) :
    Shorten p (x.value ++ [sep])
      = ColorFn.app p.EnvRoot x.name ++ ColorFn.app p.Separator [sep]
        ++ ColorFn.app
            (if sourceRoot p (x.value ++ [sep]) then p.Project else p.Default) [] := by
  have hm : envMatches (x.value ++ [sep]) x = true := by
    have hpre : (x.value ++ [sep]).isPrefixOf (x.value ++ [sep]) = true := by
      rw [List.isPrefixOf_iff_prefix]
    simp [envMatches, hpre]
  have hEP : EnvPrefix p.envs (x.value ++ [sep]) = (x.name, x.value.count sep + 1) := by
    rw [henvs]
    exact envPrefix_append_first es1 es2 x (x.value ++ [sep]) hfirst hm
  have hsplit : splitSep (x.value ++ [sep]) = splitSep x.value ++ [[]] :=
    splitSep_concat_sep x.value
  have hlenv := length_splitSep x.value
  have hlen : (splitSep (x.value ++ [sep])).length = x.value.count sep + 2 := by
    rw [hsplit]
    simp [hlenv]
  have hname' : (EnvPrefix p.envs (x.value ++ [sep])).1 ≠ [] := by
    rw [hEP]
    exact hname
  have heq : (EnvPrefix p.envs (x.value ++ [sep])).2
      = (splitSep (x.value ++ [sep])).length - 1 := by
    rw [hEP, hlen]
    show x.value.count sep + 1 = x.value.count sep + 2 - 1
    omega
  have hterm : (splitSep (x.value ++ [sep])).getD
      ((splitSep (x.value ++ [sep])).length - 1) [] = [] := by
    rw [hsplit]
    have hidx : (splitSep x.value ++ [[]] : List Str).length - 1
        = (splitSep x.value).length := by simp
    rw [hidx, List.getD_append_right _ _ _ _ (Nat.le_refl _)]
    simp
  have hpne : x.value ++ [sep] ≠ [] := by simp
  unfold Shorten
  rw [if_neg hpne, shortenPieces_label_term p (x.value ++ [sep]) hname' heq]
  rw [intercalate_cons _ _ _ (by simp), intercalate_singleton, hEP, hterm]

/-- Closed instance of `c9_amended_trailing_sep_empty_terminal`: home entry
`/home/u` as the only root, input `/home/u/`. -/
theorem c9_witness :
    Shorten
        ⟨noopColorizer, true, [], getEnvs (fun _ => []) [] [lc "/home/u"],
          fun _ => Except.error StatErr.notExist⟩
        (lc "/home/u" ++ [sep])
      = ColorFn.app noopColorizer.EnvRoot (lc "~")
        ++ ColorFn.app noopColorizer.Separator [sep]
        ++ ColorFn.app
            (if sourceRoot
                ⟨noopColorizer, true, [], getEnvs (fun _ => []) [] [lc "/home/u"],
                  fun _ => Except.error StatErr.notExist⟩
                (lc "/home/u" ++ [sep])
             then noopColorizer.Project else noopColorizer.Default) [] :=
  c9_amended_trailing_sep_empty_terminal
    ⟨noopColorizer, true, [], getEnvs (fun _ => []) [] [lc "/home/u"],
      fun _ => Except.error StatErr.notExist⟩
    ⟨lc "~", lc "/home/u"⟩ [] [] (by decide) (by decide) (by decide)

/-- C1 counterexample: with no roots, no markers and abbreviation enabled,
the non-terminal segment `.configuration` has 14 code points yet survives
`Shorten` unshortened, because the shortening regex requires a leading ASCII
word character or hyphen: not every over-3-code-point non-terminal segment is
reduced to 3 code points. -/
theorem c1_counterexample :
    shortenPieces
        ⟨noopColorizer, true, [], [], fun _ => Except.error StatErr.notExist⟩
        (lc "/.configuration/x")
      = [[], lc ".configuration", lc "x"]
    ∧ Shorten
        ⟨noopColorizer, true, [], [], fun _ => Except.error StatErr.notExist⟩
        (lc "/.configuration/x")
      = lc "/.configuration/x"
    ∧ (lc ".configuration").length = 14 := by decide

/-- C1 amended: for every path matching no root entry whose cumulative
directories contain no project marker, with abbreviation enabled and
undecorated elision, every non-terminal segment of more than 3 code points
whose first code point is an ASCII word character or hyphen and which
contains no newline is emitted as exactly its first 3 code points (inside
the Default decoration), and the terminal segment is emitted unshortened. -/
theorem c1_amended_gated_three_points (p : pathShortener) (path : Str) (i : Nat)
    (hab : p.abbreviate = true)
    (hell : p.Ellipsis = ColorFn.noop)
    (henv : EnvPrefix p.envs path = ([], 0))
    (hsr : ∀ n : Nat,
      sourceRoot p (List.intercalate [sep] ((splitSep path).take n)) = false)
    (hi : i < (splitSep path).length - 1)
    (hlen3 : 3 < ((splitSep path).getD i []).length)
    (hgood : goodSegment ((splitSep path).getD i []) = true) :
    (shortenPieces p path).getD i []
        = ColorFn.app p.Default (((splitSep path).getD i []).take 3)
      ∧ (shortenPieces p path).getLast?
        = some (ColorFn.app p.Default
            ((splitSep path).getD ((splitSep path).length - 1) [])) := by
  have hsrpath : sourceRoot p path = false := by
    have h := hsr (splitSep path).length
    rwa [List.take_length, intercalate_splitSep] at h
  have hhc : headCount p path = 0 := by simp [headCount, henv]
  constructor
  · have hmid := shortenPieces_getD_mid p path i (by rw [henv]; exact Nat.zero_le i) hi
    simp only [hhc, henv, Nat.zero_add, Nat.sub_zero] at hmid
    rw [hmid]
    simp only [shortenedSegment]
    rw [if_neg (by rw [hsr (i + 1)]; simp)]
    rw [shorten_eq_take p _ hab hell hlen3 hgood]
  · have hlast := shortenPieces_getLast p path (by rw [henv]; exact Nat.zero_le _)
    rw [hsrpath] at hlast
    simpa using hlast

/-- Closed instance of `c1_amended_gated_three_points` on `/documents/x`:
the non-terminal segment `documents` becomes its first three code points. -/
theorem c1_witness :
    (shortenPieces
        ⟨noopColorizer, true, [], [], fun _ => Except.error StatErr.notExist⟩
        (lc "/documents/x")).getD 1 []
        = ColorFn.app noopColorizer.Default
            (((splitSep (lc "/documents/x")).getD 1 []).take 3)
      ∧ (shortenPieces
          ⟨noopColorizer, true, [], [], fun _ => Except.error StatErr.notExist⟩
          (lc "/documents/x")).getLast?
        = some (ColorFn.app noopColorizer.Default
            ((splitSep (lc "/documents/x")).getD
              ((splitSep (lc "/documents/x")).length - 1) [])) :=
  c1_amended_gated_three_points
    ⟨noopColorizer, true, [], [], fun _ => Except.error StatErr.notExist⟩
    (lc "/documents/x") 1 rfl rfl rfl (fun _ => rfl) (by decide) (by decide) (by decide)

end Pathabbrev

namespace Pathabbrev

/-- C10: for every absolute path (leading separator) matching no root entry
and having at least two segments, the first processed segment is the empty
string, its emitted piece is classified by probing the detector at the empty
directory string, and with an empty directory each non-empty marker name is
probed at its bare (cleaned) relative name, with no directory prefixed. -/
theorem c10_empty_first_segment_relative_probe (p : pathShortener) (path : Str)
    (hpath : path.head? = some sep)
    (henv : EnvPrefix p.envs path = ([], 0))
    (hlen : 2 ≤ (splitSep path).length) :
    (splitSep path).getD 0 [] = []
      ∧ (shortenPieces p path).getD 0 []
        = (if sourceRoot p [] then ColorFn.app p.Project []
           else ColorFn.app p.Default [])
      ∧ ∀ file : Str, file ≠ [] → filepathJoin [] file = clean file := by
  obtain ⟨t, rfl⟩ : ∃ t, path = sep :: t := by
    rcases path with _ | ⟨c, t⟩
    · simp at hpath
    · simp only [List.head?, Option.some.injEq] at hpath
      exact ⟨t, by rw [hpath]⟩
  refine ⟨by rw [splitSep_cons_sep]; rfl, ?_, ?_⟩
  · have h2 : 0 < (splitSep (sep :: t)).length - 1 := by omega
    have hmid := shortenPieces_getD_mid p (sep :: t) 0
      (by rw [henv]) h2
    have hhc : headCount p (sep :: t) = 0 := by simp [headCount, henv]
    simp only [hhc, henv, Nat.zero_add, Nat.sub_zero] at hmid
    rw [hmid]
    simp only [shortenedSegment, splitSep_cons_sep]
    have htake : (([] : Str) :: splitSep t).take 1 = [([] : Str)] := by simp
    rw [htake, intercalate_singleton]
    have hsh : shorten p [] = [] := by
      unfold shorten
      rw [if_pos (Or.inr (by simp))]
    simp only [List.getD_cons_zero]
    rw [hsh]
  · intro file hf
    unfold filepathJoin
    rw [if_neg (by simp), if_pos hf]

/-- Closed instance of `c10_empty_first_segment_relative_probe` on the
absolute path `/ab/cd` with marker list `[.git]` and all probes failing. -/
theorem c10_witness :
    (splitSep (lc "/ab/cd")).getD 0 [] = []
      ∧ (shortenPieces
          ⟨noopColorizer, true, [lc ".git"], [], fun _ => Except.error StatErr.notExist⟩
          (lc "/ab/cd")).getD 0 []
        = (if sourceRoot
              ⟨noopColorizer, true, [lc ".git"], [], fun _ => Except.error StatErr.notExist⟩
              []
           then ColorFn.app noopColorizer.Project []
           else ColorFn.app noopColorizer.Default []) :=
  ⟨(c10_empty_first_segment_relative_probe
      ⟨noopColorizer, true, [lc ".git"], [], fun _ => Except.error StatErr.notExist⟩
      (lc "/ab/cd") (by decide) (by decide) (by decide)).1,
   (c10_empty_first_segment_relative_probe
      ⟨noopColorizer, true, [lc ".git"], [], fun _ => Except.error StatErr.notExist⟩
      (lc "/ab/cd") (by decide) (by decide) (by decide)).2.1⟩

end Pathabbrev
